import Mathlib

/-!
A shallow embedding of `src/cmd/partition.rs` (the `xsv partition` command).

The partition command streams CSV records, derives a partition key from one
selected column (optionally truncated to a byte-length), and fans the records
out into one destination file per key, keeping at most `--max-open-files`
writers open at a time in an LRU cache.

Modelling conventions:
* a `Key` is the raw byte sequence extracted from the key column (`List Nat`,
  each entry one byte);
* a `Row` is a CSV record, a list of byte-string fields;
* the side effects of the run (opening a destination, closing an evicted
  writer, writing a record to a destination) are recorded as an explicit
  `Event` trace, in exactly the order the corresponding effects happen in the
  Rust code;
* destinations are identified by the generated identifier string (the filename
  template of `util::FilenameTemplate` substitutes the identifier into a fixed
  template, which is injective in the identifier, so the identifier determines
  the destination file);
* `usize` arithmetic is `Nat` with the explicit overflow check of
  `checked_add` at `2 ^ 64`; the `panic!` of the generator and the `unwrap`
  of `WriterPool::writer` are modelled as `Option.none` results.
-/

namespace XsvPartition

/-- A partition key: the raw bytes of the key column value. -/
abbrev Key := List Nat

/-- A CSV record: a list of byte-string fields. -/
abbrev Row := List (List Nat)

/-! ### UTF-8 lossy decoding (`String::from_utf8_lossy`)

`unique_value` first decodes the key bytes as text, substituting U+FFFD for
each maximal invalid subpart (Rust's `from_utf8_lossy` semantics). -/

/-- The Unicode replacement character U+FFFD. -/
def replacementChar : Char := Char.ofNat 0xFFFD

/-- Is `b` a UTF-8 continuation byte (`0x80 ..= 0xBF`)? -/
def isContByte (b : Nat) : Bool := 0x80 ≤ b && b < 0xC0

/-- Rust `String::from_utf8_lossy`: decode a byte sequence as UTF-8, emitting one
U+FFFD per maximal invalid subpart. -/
def utf8Lossy : List Nat → List Char
  | [] => []
  | b :: rest =>
    if b < 0x80 then Char.ofNat b :: utf8Lossy rest
    else if b < 0xC2 then
      -- stray continuation byte or overlong two-byte lead
      replacementChar :: utf8Lossy rest
    else if b < 0xE0 then
      match rest with
      | b1 :: rest1 =>
        if isContByte b1 then
          Char.ofNat ((b - 0xC0) * 0x40 + (b1 - 0x80)) :: utf8Lossy rest1
        else replacementChar :: utf8Lossy (b1 :: rest1)
      | [] => [replacementChar]
    else if b < 0xF0 then
      match rest with
      | b1 :: rest1 =>
        if (if b = 0xE0 then 0xA0 else 0x80) ≤ b1 &&
            b1 < (if b = 0xED then 0xA0 else 0xC0) then
          match rest1 with
          | b2 :: rest2 =>
            if isContByte b2 then
              Char.ofNat ((b - 0xE0) * 0x1000 + (b1 - 0x80) * 0x40 + (b2 - 0x80)) ::
                utf8Lossy rest2
            else replacementChar :: utf8Lossy (b2 :: rest2)
          | [] => [replacementChar]
        else replacementChar :: utf8Lossy (b1 :: rest1)
      | [] => [replacementChar]
    else if b < 0xF5 then
      match rest with
      | b1 :: rest1 =>
        if (if b = 0xF0 then 0x90 else 0x80) ≤ b1 &&
            b1 < (if b = 0xF4 then 0x90 else 0xC0) then
          match rest1 with
          | b2 :: rest2 =>
            if isContByte b2 then
              match rest2 with
              | b3 :: rest3 =>
                if isContByte b3 then
                  Char.ofNat ((b - 0xF0) * 0x40000 + (b1 - 0x80) * 0x1000 +
                      (b2 - 0x80) * 0x40 + (b3 - 0x80)) :: utf8Lossy rest3
                else replacementChar :: utf8Lossy (b3 :: rest3)
              | [] => [replacementChar]
            else replacementChar :: utf8Lossy (b2 :: rest2)
          | [] => [replacementChar]
        else replacementChar :: utf8Lossy (b1 :: rest1)
      | [] => [replacementChar]
    else
      -- invalid lead byte 0xF5 ..= 0xFF
      replacementChar :: utf8Lossy rest

/-! ### The identifier generator (`WriterGenerator`) -/

/-- The `\W` character class of the sanitizing regex `Regex::new(r"\W")`.
The `regex` crate is an external dependency; modelled per the spec's reading:
`\W` matches every character that is not alphanumeric or underscore. -/
def nonWordChar (c : Char) : Bool := !(c.isAlphanum || c == '_')

/-- The sanitization step of `WriterGenerator::unique_value`: decode the key
bytes with `from_utf8_lossy`, delete every `\W` character
(`non_word_char.replace_all(.., "")`), and fall back to `"empty"` if nothing
is left. -/
def sanitizedBase (key : Key) : String :=
  let safe := (utf8Lossy key).filter fun c => !nonWordChar c
  if safe.isEmpty then "empty" else String.mk safe

/-- The value of `usize::MAX` on a 64-bit target. -/
def usizeMax : Nat := 2 ^ 64 - 1

/-- State of `WriterGenerator`: the collision counter and the set of
identifiers issued so far (`used`, a `HashSet<String>` modelled as a list). -/
structure WriterGenerator where
  counter : Nat
  used : List String
deriving DecidableEq

/-- The constructor `WriterGenerator::new`: counter starts at 1, no identifier used yet. -/
def WriterGenerator.new : WriterGenerator := ⟨1, []⟩

/-- The collision loop of `unique_value`: try `base_counter`, bumping the
counter via `checked_add` (overflow panics, modelled as `none`), until an
unused candidate is found.  The `fuel` argument only bounds the recursion;
`uniqueValue` passes enough fuel that it runs out exactly never (the overflow
check fires first). -/
def findCandidate (used : List String) (base : String) : Nat → Nat → Option (String × Nat)
  | _, 0 => none
  | counter, fuel + 1 =>
    let candidate := base ++ "_" ++ Nat.repr counter
    if usizeMax ≤ counter then none
    else if used.contains candidate then findCandidate used base (counter + 1) fuel
    else some (candidate, counter + 1)

/-- The allocator `WriterGenerator::unique_value`: sanitize the key into a base; if the base
is unused, issue it, otherwise run the collision loop.  Returns the issued
identifier and the updated generator, or `none` on counter-overflow panic. -/
def WriterGenerator.uniqueValue (g : WriterGenerator) (key : Key) :
    Option (String × WriterGenerator) :=
  let base := sanitizedBase key
  if g.used.contains base then
    match findCandidate g.used base g.counter (usizeMax + 1 - g.counter) with
    | none => none
    | some (candidate, counter') => some (candidate, ⟨counter', candidate :: g.used⟩)
  else
    some (base, ⟨g.counter, base :: g.used⟩)

/-- Feed a sequence of keys through the generator (one `unique_value` call per
key), collecting the issued identifiers; a panic stops the sequence. -/
def runGen : WriterGenerator → List Key → List String × WriterGenerator
  | g, [] => ([], g)
  | g, k :: ks =>
    match g.uniqueValue k with
    | none => ([], g)
    | some (id, g') =>
      let r := runGen g' ks
      (id :: r.1, r.2)

/-! ### The event trace

Side effects of the run, in the order they happen in the Rust code:
`eopen id` is a `template.writer` call creating/opening the destination file
named by identifier `id`; `eclose id` is the drop (flush and close) of the
writer for `id` when the LRU cache evicts it; `ewrite id r` writes record `r`
to destination `id`. -/
inductive Event where
  | eopen : String → Event
  | eclose : String → Event
  | ewrite : String → Row → Event
deriving DecidableEq

/-! ### The LRU writer cache (`lru::LruCache<Vec<u8>, BoxedWriter>`)

Entries are kept most-recently-used first.  A cached writer is represented by
the identifier of the destination it writes to. -/

/-- The bounded LRU cache of open writers. -/
structure LruCache where
  cap : Nat
  entries : List (Key × String)
deriving DecidableEq

/-- The lookup `LruCache::contains` (does not touch recency). -/
def LruCache.containsKey (c : LruCache) (k : Key) : Bool :=
  c.entries.any fun e => e.1 == k

/-- Remove the first entry with key `k` (detaching the node that is about to
be moved to the front, or replaced). -/
def removeKey : List (Key × String) → Key → List (Key × String)
  | [], _ => []
  | e :: es, k => if e.1 == k then es else e :: removeKey es k

/-- The lookup `LruCache::get_mut`: look the key up and, on a hit, move its entry to the
most-recently-used position. -/
def LruCache.getMut (c : LruCache) (k : Key) : Option (String × LruCache) :=
  match c.entries.find? (fun e => e.1 == k) with
  | none => none
  | some e => some (e.2, ⟨c.cap, (e.1, e.2) :: removeKey c.entries k⟩)

/-- The insertion `LruCache::put`: insert the entry at the most-recently-used position
(replacing any previous entry for the same key) and, if the capacity is now
exceeded, evict the least-recently-used entry.  The evicted entry is returned
so that the caller can record its drop (flush/close). -/
def LruCache.put (c : LruCache) (k : Key) (v : String) :
    LruCache × Option (Key × String) :=
  if c.cap < ((k, v) :: removeKey c.entries k).length then
    (⟨c.cap, ((k, v) :: removeKey c.entries k).dropLast⟩,
      ((k, v) :: removeKey c.entries k).getLast?)
  else
    (⟨c.cap, (k, v) :: removeKey c.entries k⟩, none)

/-! ### The writer pool (`WriterPool`) -/

/-- The structure `WriterPool`: the set of keys ever seen, the identifier generator, and the
configuration needed for header emission.  (`outdir` and the filename template
only contribute to the path prefix, identical for all destinations, and are
omitted; `rconfig` contributes its `no_headers` flag.) -/
structure WriterPool where
  seenKeys : List Key
  gen : WriterGenerator
  noHeaders : Bool
  flagDrop : Bool
  headers : Row
  keyCol : Nat
deriving DecidableEq

/-- The column-drop projection used for both data records and the header:
`row.iter().enumerate().filter_map(|(i, e)| if i != key_col { Some(e) } else { None })`. -/
def dropCol (keyCol : Nat) (row : Row) : Row :=
  row.enum.filterMap fun ie => if ie.1 ≠ keyCol then some ie.2 else none

/-- The operation `WriterPool::new_writer`: for a key already in `seen_keys`, `re_open` the
destination (which calls `unique_value` again); for a fresh key, record it as
seen, create the destination, and emit the header record unless headers are
suppressed.  Returns the destination identifier, the updated pool, and the
emitted events; `none` is the generator's overflow panic. -/
def WriterPool.newWriter (p : WriterPool) (key : Key) :
    Option (String × WriterPool × List Event) :=
  if p.seenKeys.contains key then
    match p.gen.uniqueValue key with
    | none => none
    | some (id, g) => some (id, { p with gen := g }, [Event.eopen id])
  else
    match p.gen.uniqueValue key with
    | none => none
    | some (id, g) =>
      some (id, { p with seenKeys := key :: p.seenKeys, gen := g },
        Event.eopen id ::
          (if !p.noHeaders then
            [Event.ewrite id (if p.flagDrop then dropCol p.keyCol p.headers else p.headers)]
          else []))

/-- The operation `WriterPool::writer`: on a cache miss, build a new writer (`new_writer`
runs, opening the destination, *before* `put` may evict the LRU entry) and
insert it; then `get_mut(key).unwrap()`.  `none` covers both the generator
panic and the `unwrap` panic. -/
def WriterPool.writer (p : WriterPool) (c : LruCache) (key : Key) :
    Option (String × WriterPool × LruCache × List Event) :=
  if !(c.containsKey key) then
    match p.newWriter key with
    | none => none
    | some (id, p', evs) =>
      match (c.put key id).1.getMut key with
      | none => none
      | some (v, c') =>
        some (v, p', c',
          evs ++ (match (c.put key id).2 with
            | some ev => [Event.eclose ev.2]
            | none => []))
  else
    match c.getMut key with
    | none => none
    | some (v, c') => some (v, p, c', [])

/-! ### The partition driver (`Args::sequential_partition`) -/

/-- The key derivation of the main loop: truncate the column value to the
configured byte-length when it is strictly longer
(`Some(len) if len < column.len() => &column[0..len]`). -/
def keyOf (flagPrefixLen : Option Nat) (column : List Nat) : Key :=
  match flagPrefixLen with
  | some len => if len < column.length then column.take len else column
  | none => column

/-- One iteration of the `while rdr.read_byte_record` loop: derive the key
from the key column (CSV guarantees same-shaped records, so the index is in
bounds and `getD` matches `&row[key_col]`), fetch the writer, and write the
(possibly column-dropped) record. -/
def processRow (flagPrefixLen : Option Nat) (p : WriterPool) (c : LruCache)
    (row : Row) : Option (WriterPool × LruCache × List Event) :=
  match p.writer c (keyOf flagPrefixLen (row.getD p.keyCol [])) with
  | none => none
  | some (id, p', c', evs) =>
    some (p', c',
      evs ++ [Event.ewrite id (if p.flagDrop then dropCol p.keyCol row else row)])

/-- The whole record loop. -/
def runRows (flagPrefixLen : Option Nat) :
    WriterPool → LruCache → List Row → Option (WriterPool × LruCache × List Event)
  | p, c, [] => some (p, c, [])
  | p, c, row :: rest =>
    match processRow flagPrefixLen p c row with
    | none => none
    | some (p', c', evs) =>
      match runRows flagPrefixLen p' c' rest with
      | none => none
      | some (p'', c'', evs') => some (p'', c'', evs ++ evs')

/-- The configuration surface of `Args` that `sequential_partition` consumes.
`selectCols` stands for the result of `rconfig.selection(headers)` (column
selection itself is an external collaborator); the input path, output
directory, delimiter and filename template only affect external plumbing. -/
structure Args where
  selectCols : List Nat
  flagMaxOpenFiles : Nat
  flagPrefixLen : Option Nat
  flagDrop : Bool
  flagNoHeaders : Bool
deriving DecidableEq

/-- The operation `Args::key_column`: accept exactly one selected column, otherwise
`fail!("can only partition on one column")`. -/
def Args.keyColumn (a : Args) : Except String Nat :=
  if a.selectCols.length = 1 then Except.ok (a.selectCols.getD 0 0)
  else Except.error "can only partition on one column"

/-- Outcome of a run: the event trace on success, the configuration error of
`key_column`, or a panic (generator counter overflow / `unwrap`). -/
inductive RunResult where
  | ok : List Event → RunResult
  | configError : String → RunResult
  | panicked : RunResult
deriving DecidableEq

/-- The operation `Args::sequential_partition`: resolve the key column (before the pool, the
cache, or any destination exists), then run the record loop from an empty
`seen_keys`, a fresh generator, and an empty cache of capacity
`flag_max_open_files`. -/
def Args.sequentialPartition (a : Args) (headers : Row) (rows : List Row) : RunResult :=
  match a.keyColumn with
  | Except.error msg => RunResult.configError msg
  | Except.ok keyCol =>
    match runRows a.flagPrefixLen
        { seenKeys := [], gen := WriterGenerator.new, noHeaders := a.flagNoHeaders,
          flagDrop := a.flagDrop, headers := headers, keyCol := keyCol }
        ⟨a.flagMaxOpenFiles, []⟩ rows with
    | none => RunResult.panicked
    | some (_, _, evs) => RunResult.ok evs

/-! ### Observations on traces -/

/-- The final content of destination `id`: the records written to it, in
order.  (Within one run every `eopen` of a given identifier happens at most
once and destinations are opened in append-or-create mode — `re_open`
"Does not truncate file" — so the file's final content is exactly the
sequence of records written to that identifier.) -/
def contentOf (id : String) (trace : List Event) : List Row :=
  trace.filterMap fun ev =>
    match ev with
    | Event.ewrite i r => if i == id then some r else none
    | _ => none

/-- Is the event a destination open? -/
def isOpenEv : Event → Bool
  | Event.eopen _ => true
  | _ => false

/-- Is the event a writer close? -/
def isCloseEv : Event → Bool
  | Event.eclose _ => true
  | _ => false

/-- The number of destination handles open after the events `t`:
opens minus closes (as an integer). -/
def netOpen (t : List Event) : Int :=
  (t.countP isOpenEv : Int) - (t.countP isCloseEv : Int)

/-! ### Concrete fixtures

The running example of the spec: header `k,v`, rows `(a,1), (b,2), (a,3)`,
partitioned on column 0 with `--max-open-files 1`, so the writer for key `a`
is evicted between rows 1 and 3.  Bytes: `k` = 107, `v` = 118, `a` = 97,
`b` = 98, `1` = 49, `2` = 50, `3` = 51. -/

/-- The invocation `xsv partition 0 out --max-open-files 1` (headers on, no drop, no
truncation). -/
def argsEx : Args := ⟨[0], 1, none, false, false⟩

/-- Header row `k,v`. -/
def hdrEx : Row := [[107], [118]]

/-- Data rows `(a,1), (b,2), (a,3)`. -/
def rowsEx : List Row := [[[97], [49]], [[98], [50]], [[97], [51]]]

/-- The event trace the model produces on the fixture run. -/
def traceEx : List Event :=
  [Event.eopen "a", Event.ewrite "a" [[107], [118]], Event.ewrite "a" [[97], [49]],
   Event.eopen "b", Event.ewrite "b" [[107], [118]], Event.eclose "a",
   Event.ewrite "b" [[98], [50]],
   Event.eopen "a_1", Event.eclose "b", Event.ewrite "a_1" [[97], [51]]]

/-- The fixture with `--drop`: partition `(a,1)` on column 0, dropping it. -/
def argsDropEx : Args := ⟨[0], 512, none, true, false⟩

/-- Trace of the `--drop` fixture run. -/
def traceDropEx : List Event :=
  [Event.eopen "a", Event.ewrite "a" [[118]], Event.ewrite "a" [[49]]]

/-- A fresh pool for the C10 witness. -/
def poolEx : WriterPool :=
  { seenKeys := [], gen := WriterGenerator.new, noHeaders := false,
    flagDrop := false, headers := [[107], [118]], keyCol := 0 }

/-! ## Theorems -/

/-! ### Generator lemmas -/

/-- Any candidate issued by the collision loop was unused, and the counter
never decreases. -/
theorem findCandidate_spec (used : List String) (base : String) :
    ∀ fuel counter candidate counter',
      findCandidate used base counter fuel = some (candidate, counter') →
      used.contains candidate = false ∧ counter ≤ counter' := by
  intro fuel
  induction fuel with
  | zero => intro counter candidate counter' h; simp [findCandidate] at h
  | succ fuel ih =>
    intro counter candidate counter' h
    simp only [findCandidate] at h
    split at h
    · exact absurd h (by simp)
    · split at h
      · have := ih (counter + 1) candidate counter' h
        exact ⟨this.1, Nat.le_of_succ_le this.2⟩
      · simp only [Option.some.injEq, Prod.mk.injEq] at h
        refine ⟨h.1 ▸ ?_, h.2 ▸ Nat.le_succ counter⟩
        simp_all

/-- A call of `unique_value` issues an identifier that was not yet used, records it as
used, and never decreases the counter. -/
theorem uniqueValue_spec (g : WriterGenerator) (key : Key) (id : String)
    (g' : WriterGenerator) (h : g.uniqueValue key = some (id, g')) :
    g.used.contains id = false ∧ g'.used = id :: g.used ∧ g.counter ≤ g'.counter := by
  simp only [WriterGenerator.uniqueValue] at h
  split at h
  · split at h
    · exact absurd h (by simp)
    · rename_i candidate cnt hfc
      simp only [Option.some.injEq, Prod.mk.injEq] at h
      obtain ⟨hid, hg'⟩ := h
      have hspec := findCandidate_spec g.used (sanitizedBase key) _ _ _ _ hfc
      subst hid
      exact ⟨hspec.1, by rw [← hg'], by rw [← hg']; exact hspec.2⟩
  · rename_i hbase
    simp only [Option.some.injEq, Prod.mk.injEq] at h
    obtain ⟨hid, hg'⟩ := h
    subst hid
    exact ⟨by simpa using hbase, by rw [← hg'], by rw [← hg']⟩

/-- Every identifier issued by a run of the generator was unused at the start
of the run. -/
theorem runGen_fresh : ∀ (ks : List Key) (g : WriterGenerator) (x : String),
    x ∈ (runGen g ks).1 → g.used.contains x = false := by
  intro ks
  induction ks with
  | nil => intro g x hx; simp [runGen] at hx
  | cons k ks ih =>
    intro g x hx
    simp only [runGen] at hx
    cases huv : g.uniqueValue k with
    | none => rw [huv] at hx; simp at hx
    | some pr =>
      rw [huv] at hx
      obtain ⟨hfresh, hused, -⟩ := uniqueValue_spec g k pr.1 pr.2 huv
      simp only [List.mem_cons] at hx
      cases hx with
      | inl hx => exact hx ▸ hfresh
      | inr hx =>
        have := ih pr.2 x hx
        rw [hused] at this
        simp only [List.contains_cons, Bool.or_eq_false_iff] at this
        exact this.2

/-- The identifiers issued by a run of the generator are pairwise distinct. -/
theorem runGen_nodup : ∀ (ks : List Key) (g : WriterGenerator), (runGen g ks).1.Nodup := by
  intro ks
  induction ks with
  | nil => intro g; simp [runGen]
  | cons k ks ih =>
    intro g
    simp only [runGen]
    cases huv : g.uniqueValue k with
    | none => simp
    | some pr =>
      simp only [List.nodup_cons]
      refine ⟨fun hmem => ?_, ih pr.2⟩
      have hfresh := runGen_fresh ks pr.2 pr.1 hmem
      obtain ⟨-, hused, -⟩ := uniqueValue_spec g k pr.1 pr.2 huv
      rw [hused] at hfresh
      simp at hfresh

/-- The counter never decreases across a run of the generator. -/
theorem runGen_counter_mono : ∀ (ks : List Key) (g : WriterGenerator),
    g.counter ≤ (runGen g ks).2.counter := by
  intro ks
  induction ks with
  | nil => intro g; simp [runGen]
  | cons k ks ih =>
    intro g
    simp only [runGen]
    cases huv : g.uniqueValue k with
    | none => simp
    | some pr =>
      obtain ⟨-, -, hcnt⟩ := uniqueValue_spec g k pr.1 pr.2 huv
      exact le_trans hcnt (ih pr.2)

/-! ### Claim C5 -/

/-- Claim C5 (confirmed): for every sequence of allocation calls to the
identifier generator — byte-identical repeats and colliding sanitized bases
included — no identifier is ever issued twice, and the collision counter,
shared across all bases, is monotonically increasing and never reset. -/
theorem c5_identifier_uniqueness (g : WriterGenerator) (keys : List Key) :
    (runGen g keys).1.Nodup ∧ g.counter ≤ (runGen g keys).2.counter :=
  ⟨runGen_nodup keys g, runGen_counter_mono keys g⟩

/-! ### Claim C6 -/

/-- Claim C6 (confirmed): the identifier base is the permissive text decoding
of the key bytes with every character that is not alphanumeric or underscore
stripped, with literal fallback `"empty"` when nothing remains; the keys
`"a!b"` and `"a?b"` both yield base `"ab"` and receive identifiers `"ab"` and
`"ab_1"` respectively. -/
theorem c6_sanitization :
    (∀ key : Key, sanitizedBase key =
      (if ((utf8Lossy key).filter fun c => c.isAlphanum || c == '_').isEmpty then "empty"
       else String.mk ((utf8Lossy key).filter fun c => c.isAlphanum || c == '_')))
    ∧ sanitizedBase [] = "empty"
    ∧ sanitizedBase [97, 33, 98] = "ab"
    ∧ sanitizedBase [97, 63, 98] = "ab"
    ∧ (runGen WriterGenerator.new [[97, 33, 98], [97, 63, 98]]).1 = ["ab", "ab_1"] := by
  refine ⟨fun key => ?_, by decide, by decide, by decide, by decide⟩
  simp only [sanitizedBase, nonWordChar, Bool.not_not]

/-! ### Claim C7 -/

/-- Claim C7 (confirmed): with a configured prefix length, the key used for
identifier derivation and bucket assignment is the first `len` bytes of the
column value — exactly `len` bytes when the value is strictly longer, the
unchanged value otherwise (and the unchanged value when no length is
configured). -/
theorem c7_truncation (len : Nat) (column : List Nat) :
    keyOf (some len) column = column.take len
    ∧ (column.length ≤ len → keyOf (some len) column = column)
    ∧ (len < column.length → (keyOf (some len) column).length = len)
    ∧ keyOf none column = column := by
  refine ⟨?_, fun hle => ?_, fun hlt => ?_, rfl⟩
  · simp only [keyOf]
    split
    · rfl
    · rename_i hnlt
      exact (List.take_of_length_le (Nat.le_of_not_lt hnlt)).symm
  · simp only [keyOf, if_neg (Nat.not_lt.mpr hle)]
  · simp only [keyOf, if_pos hlt, List.length_take]
    exact Nat.min_eq_left (Nat.le_of_lt hlt)

/-- Witness for C7 at concrete inputs. -/
theorem c7_truncation_witness :
    keyOf (some 5) [1, 2] = [1, 2] ∧ (keyOf (some 1) [1, 2]).length = 1 :=
  ⟨(c7_truncation 5 [1, 2]).2.1 (by decide),
   (c7_truncation 1 [1, 2]).2.2.1 (by decide)⟩

/-! ### Claim C9 -/

/-- Claim C9 (confirmed): a selection resolving to zero or several columns is
rejected by `key_column` before the pool, the cache, or any destination
exists — the run ends as a configuration error with an empty effect trace, so
no record is processed and no destination is created or written. -/
theorem c9_wrong_selection_is_config_error (a : Args) (headers : Row) (rows : List Row)
    (h : a.selectCols.length ≠ 1) :
    a.sequentialPartition headers rows =
      RunResult.configError "can only partition on one column" := by
  unfold Args.sequentialPartition Args.keyColumn
  rw [if_neg h]

/-- Witness for C9: selecting two columns fails before any record is
processed. -/
theorem c9_wrong_selection_witness :
    Args.sequentialPartition ⟨[0, 1], 4, none, false, false⟩ [[107]] [[[97]]] =
      RunResult.configError "can only partition on one column" :=
  c9_wrong_selection_is_config_error _ _ _ (by decide)

/-! ### Claims C1, C2, C4 (the reopen bug) and the C3 counterexample -/

/-- Claim C1 (code bug): on the fixture run, reopening the evicted key `a`
does *not* reuse the previously allocated identifier `a` — `re_open` calls
`unique_value` again, which allocates the fresh identifier `a_1`, so the same
key yields two different destination paths. -/
theorem c1_reopen_allocates_new_identifier :
    argsEx.sequentialPartition hdrEx rowsEx = RunResult.ok traceEx
    ∧ Event.eopen "a" ∈ traceEx ∧ Event.eopen "a_1" ∈ traceEx := by decide

/-- Claim C2 (code bug): on the fixture run, the records keyed `a` do not end
up concatenated in one destination: destination `a` holds the header and row
1 only, while row 3 lands in the separate destination `a_1`. -/
theorem c2_records_split_across_destinations :
    argsEx.sequentialPartition hdrEx rowsEx = RunResult.ok traceEx
    ∧ contentOf "a" traceEx = [hdrEx, [[97], [49]]]
    ∧ contentOf "a_1" traceEx = [[[97], [51]]] := by decide

/-- Claim C4 (code bug): on the fixture run, requesting the evicted key `a`
again does not append to its prior destination: a new destination `a_1` is
opened whose content is nonempty yet contains no header record at all. -/
theorem c4_reopened_destination_lacks_header :
    argsEx.sequentialPartition hdrEx rowsEx = RunResult.ok traceEx
    ∧ Event.eopen "a_1" ∈ traceEx
    ∧ hdrEx ∉ contentOf "a_1" traceEx
    ∧ contentOf "a_1" traceEx ≠ [] := by decide

/-- Counterexample to claim C3 as stated: with `--max-open-files 1`, after
the first four events of the fixture run (`open a`, two writes, `open b`) two
destination handles are open simultaneously — the new writer is created
before `put` evicts and closes the least-recently-used one. -/
theorem c3_transient_excess_open :
    argsEx.flagMaxOpenFiles = 1
    ∧ argsEx.sequentialPartition hdrEx rowsEx = RunResult.ok traceEx
    ∧ netOpen (traceEx.take 4) = 2 := by decide

/-! ### Cache lemmas and claim C10 -/

/-- Removing an absent key is a no-op. -/
theorem removeKey_of_not_contains : ∀ (es : List (Key × String)) (k : Key),
    (es.any fun e => e.1 == k) = false → removeKey es k = es := by
  intro es k h
  induction es with
  | nil => rfl
  | cons e es ih =>
    simp only [List.any_cons, Bool.or_eq_false_iff] at h
    simp [removeKey, h.1, ih h.2]

/-- Removing a present key shortens the list by exactly one. -/
theorem length_removeKey_of_any : ∀ (es : List (Key × String)) (k : Key),
    (es.any fun e => e.1 == k) = true → (removeKey es k).length + 1 = es.length := by
  intro es k h
  induction es with
  | nil => simp at h
  | cons e es ih =>
    by_cases he : (e.1 == k) = true
    · simp [removeKey, he]
    · simp only [List.any_cons, he, Bool.false_or] at h
      simp [removeKey, he, ih h]

/-- A successful `get_mut` preserves the capacity and the number of resident
entries (the hit entry just moves to the front). -/
theorem getMut_some_spec (c : LruCache) (k : Key) (v : String) (c' : LruCache)
    (h : c.getMut k = some (v, c')) :
    c'.cap = c.cap ∧ c'.entries.length = c.entries.length := by
  unfold LruCache.getMut at h
  split at h
  · exact absurd h (by simp)
  · rename_i e hfind
    simp only [Option.some.injEq, Prod.mk.injEq] at h
    obtain ⟨-, hc'⟩ := h
    have hmem := List.mem_of_find?_eq_some hfind
    have hpred := List.find?_some hfind
    have hany : (c.entries.any fun e => e.1 == k) = true :=
      List.any_eq_true.mpr ⟨e, hmem, hpred⟩
    rw [← hc']
    exact ⟨rfl, by simpa using length_removeKey_of_any c.entries k hany⟩

/-- A key resident in the cache is found by `get_mut`. -/
theorem getMut_isSome_of_contains (c : LruCache) (k : Key)
    (h : c.containsKey k = true) : ∃ v c', c.getMut k = some (v, c') := by
  unfold LruCache.containsKey at h
  unfold LruCache.getMut
  cases hfind : c.entries.find? (fun e => e.1 == k) with
  | none =>
    obtain ⟨e, hmem, hpred⟩ := List.any_eq_true.mp h
    exact absurd hpred (by simpa using List.find?_eq_none.mp hfind e hmem)
  | some e => exact ⟨e.2, _, rfl⟩

/-- Dropping the last element of a list with at least two elements keeps the
head. -/
theorem dropLast_cons_cons (a b : Key × String) (t : List (Key × String)) :
    (a :: b :: t).dropLast = a :: (b :: t).dropLast := rfl

/-- After `put k v` into a cache of capacity at least one, the fresh entry is
at the most-recently-used position: the eviction triggered by the insertion
can only remove a different, older entry. -/
theorem put_entries_cons (c : LruCache) (k : Key) (v : String) (hcap : 1 ≤ c.cap) :
    ∃ t, (c.put k v).1 = ⟨c.cap, (k, v) :: t⟩ := by
  unfold LruCache.put
  split
  · rename_i hlen
    cases hrk : removeKey c.entries k with
    | nil =>
      rw [hrk] at hlen
      simp at hlen
      omega
    | cons b t => exact ⟨(b :: t).dropLast, rfl⟩
  · exact ⟨removeKey c.entries k, rfl⟩

/-- After `put k v` into a cache of capacity at least one, `get_mut k`
succeeds and returns `v`. -/
theorem getMut_after_put (c : LruCache) (k : Key) (v : String) (hcap : 1 ≤ c.cap) :
    ∃ c', ((c.put k v).1).getMut k = some (v, c') := by
  obtain ⟨t, ht⟩ := put_entries_cons c k v hcap
  rw [ht]
  have hf : List.find? (fun e => e.1 == k) ((k, v) :: t) = some (k, v) :=
    List.find?_cons_of_pos _ (by simp)
  simp only [LruCache.getMut, hf]
  exact ⟨_, rfl⟩

/-- Claim C10 (confirmed): for a cache of capacity at least 1, the
`get_mut(key).unwrap()` at the end of `WriterPool::writer` never panics — if
the writer operation fails at all, the failure is `new_writer`'s (the
generator's counter-overflow panic), never the final lookup. -/
theorem c10_lookup_after_insert_succeeds (p : WriterPool) (c : LruCache) (key : Key)
    (hcap : 1 ≤ c.cap) (hnw : p.newWriter key ≠ none) :
    ∃ out, p.writer c key = some out := by
  cases hc : c.containsKey key with
  | true =>
    obtain ⟨v, c', hget⟩ := getMut_isSome_of_contains c key hc
    exact ⟨(v, p, c', []), by simp [WriterPool.writer, hc, hget]⟩
  | false =>
    obtain ⟨⟨id, p', evs⟩, hnw'⟩ := Option.ne_none_iff_exists'.mp hnw
    obtain ⟨c', hget⟩ := getMut_after_put c key id hcap
    refine ⟨(id, p', c',
      evs ++ (match (c.put key id).2 with
        | some ev => [Event.eclose ev.2]
        | none => [])), ?_⟩
    simp only [WriterPool.writer, hc, Bool.not_false, if_true, hnw', hget]

/-- Witness for C10 at a concrete pool, cache, and key. -/
theorem c10_lookup_witness : ∃ out, poolEx.writer ⟨1, []⟩ [97] = some out :=
  c10_lookup_after_insert_succeeds poolEx ⟨1, []⟩ [97] (by decide) (by decide)

/-! ### Structural lemmas about `new_writer` and `writer` -/

/-- A successful `new_writer` emits exactly one `open` event, optionally
followed by one header write (the possibly column-dropped header), and leaves
every configuration field of the pool unchanged. -/
theorem newWriter_spec (p : WriterPool) (key : Key) (id : String) (p' : WriterPool)
    (evs : List Event) (h : p.newWriter key = some (id, p', evs)) :
    (evs = [Event.eopen id] ∨
      evs = [Event.eopen id,
        Event.ewrite id (if p.flagDrop then dropCol p.keyCol p.headers else p.headers)]) ∧
    p'.noHeaders = p.noHeaders ∧ p'.flagDrop = p.flagDrop ∧
    p'.headers = p.headers ∧ p'.keyCol = p.keyCol := by
  unfold WriterPool.newWriter at h
  split at h
  · split at h
    · exact absurd h (by simp)
    · rename_i uid g huv
      simp only [Option.some.injEq, Prod.mk.injEq] at h
      obtain ⟨hid, hp, hevs⟩ := h
      subst hid
      rw [← hp, ← hevs]
      exact ⟨Or.inl rfl, rfl, rfl, rfl, rfl⟩
  · split at h
    · exact absurd h (by simp)
    · rename_i uid g huv
      simp only [Option.some.injEq, Prod.mk.injEq] at h
      obtain ⟨hid, hp, hevs⟩ := h
      subst hid
      rw [← hp, ← hevs]
      refine ⟨?_, rfl, rfl, rfl, rfl⟩
      cases hnh : p.noHeaders with
      | true => exact Or.inl (by simp [hnh])
      | false => exact Or.inr (by simp [hnh])

/-- Master case analysis of a successful `WriterPool::writer` call: either a
cache hit (no events, pool unchanged) or a miss (`new_writer` events followed
by the close of the evicted entry, if any). -/
theorem writer_cases (p : WriterPool) (c : LruCache) (key : Key) (v : String)
    (p' : WriterPool) (c' : LruCache) (evs : List Event)
    (h : p.writer c key = some (v, p', c', evs)) :
    (c.containsKey key = true ∧ p' = p ∧ evs = [] ∧ c.getMut key = some (v, c')) ∨
    (c.containsKey key = false ∧ ∃ id evs1,
      p.newWriter key = some (id, p', evs1) ∧
      (c.put key id).1.getMut key = some (v, c') ∧
      evs = evs1 ++ (match (c.put key id).2 with
        | some ev => [Event.eclose ev.2]
        | none => [])) := by
  cases hc : c.containsKey key with
  | true =>
    refine Or.inl ⟨rfl, ?_⟩
    unfold WriterPool.writer at h
    rw [if_neg (by simp [hc])] at h
    split at h
    · exact absurd h (by simp)
    · rename_i v0 c0 hget
      simp only [Option.some.injEq, Prod.mk.injEq] at h
      obtain ⟨hv, hp, hc0, hevs⟩ := h
      exact ⟨hp.symm, hevs.symm, by rw [hget, hv, hc0]⟩
  | false =>
    refine Or.inr ⟨rfl, ?_⟩
    unfold WriterPool.writer at h
    rw [if_pos (by simp [hc])] at h
    split at h
    · exact absurd h (by simp)
    · rename_i id p1 evs1 hnw
      split at h
      · exact absurd h (by simp)
      · rename_i v0 c0 hget
        simp only [Option.some.injEq, Prod.mk.injEq] at h
        obtain ⟨hv, hp, hc0, hevs⟩ := h
        exact ⟨id, evs1, by rw [hnw, hp], by rw [hget, hv, hc0], hevs.symm⟩

/-- Quantitative behaviour of `put` on a missing key: either the entry fits
(no eviction, one more resident entry) or the LRU entry is evicted (resident
count unchanged). -/
theorem put_spec_not_contains (c : LruCache) (k : Key) (v : String)
    (hc : c.containsKey k = false) :
    (c.put k v).1.cap = c.cap ∧
    (((c.put k v).2 = none ∧ (c.put k v).1.entries.length = c.entries.length + 1 ∧
        c.entries.length + 1 ≤ c.cap) ∨
      ((∃ e, (c.put k v).2 = some e) ∧
        (c.put k v).1.entries.length = c.entries.length ∧
        c.cap < c.entries.length + 1)) := by
  have hrk : removeKey c.entries k = c.entries :=
    removeKey_of_not_contains c.entries k (by simpa [LruCache.containsKey] using hc)
  unfold LruCache.put
  rw [hrk]
  by_cases hlen : c.cap < ((k, v) :: c.entries).length
  · rw [if_pos hlen]
    refine ⟨rfl, Or.inr ⟨?_, ?_, by simpa using hlen⟩⟩
    · have hsome : ((k, v) :: c.entries).getLast?.isSome := by
        rw [List.getLast?_isSome]
        simp
      obtain ⟨e, he⟩ := Option.isSome_iff_exists.mp hsome
      exact ⟨e, he⟩
    · simp [List.length_dropLast]
  · rw [if_neg hlen]
    exact ⟨rfl, Or.inl ⟨rfl, by simp, by simpa using Nat.not_lt.mp hlen⟩⟩

/-! ### Counting open handles -/

/-- The count `netOpen` distributes over concatenation. -/
theorem netOpen_append (xs ys : List Event) :
    netOpen (xs ++ ys) = netOpen xs + netOpen ys := by
  simp only [netOpen, List.countP_append]
  push_cast
  ring

/-- The count `netOpen` of a prefix of a concatenation. -/
theorem netOpen_take_append (xs ys : List Event) (n : Nat) :
    netOpen ((xs ++ ys).take n) =
      netOpen (xs.take n) + netOpen (ys.take (n - xs.length)) := by
  rw [List.take_append_eq_append_take, netOpen_append]

/-- Every prefix of a single `open` event has at most one net open. -/
theorem netOpen_take_open (id : String) :
    ∀ n, netOpen ([Event.eopen id].take n) ≤ 1 := by
  intro n
  match n with
  | 0 => simp [netOpen]
  | n + 1 => simp [netOpen, List.countP_cons, isOpenEv, isCloseEv]

/-- Every prefix of an `open` followed by a write has at most one net open. -/
theorem netOpen_take_open_write (id : String) (hr : Row) :
    ∀ n, netOpen ([Event.eopen id, Event.ewrite id hr].take n) ≤ 1 := by
  intro n
  match n with
  | 0 => simp [netOpen]
  | 1 => simp [netOpen, List.countP_cons, isOpenEv, isCloseEv]
  | n + 2 => simp [netOpen, List.countP_cons, isOpenEv, isCloseEv]

/-- Every prefix of a single `close` event has a nonpositive net open. -/
theorem netOpen_take_close (id : String) :
    ∀ n, netOpen ([Event.eclose id].take n) ≤ 0 := by
  intro n
  match n with
  | 0 => simp [netOpen]
  | n + 1 => simp [netOpen, List.countP_cons, isOpenEv, isCloseEv]

/-- Every prefix of a single `write` event has a nonpositive net open. -/
theorem netOpen_take_write (id : String) (r : Row) :
    ∀ n, netOpen ([Event.ewrite id r].take n) ≤ 0 := by
  intro n
  match n with
  | 0 => simp [netOpen]
  | n + 1 => simp [netOpen, List.countP_cons, isOpenEv, isCloseEv]

/-- The events of a successful `new_writer` have net open exactly one, and at
most one on every prefix. -/
theorem netOpen_newWriter (p : WriterPool) (key : Key) (id : String) (p' : WriterPool)
    (evs : List Event) (h : p.newWriter key = some (id, p', evs)) :
    netOpen evs = 1 ∧ ∀ n, netOpen (evs.take n) ≤ 1 := by
  rcases (newWriter_spec p key id p' evs h).1 with hevs | hevs
  · subst hevs
    exact ⟨by simp [netOpen, List.countP_cons, isOpenEv, isCloseEv], netOpen_take_open id⟩
  · subst hevs
    exact ⟨by simp [netOpen, List.countP_cons, isOpenEv, isCloseEv],
      netOpen_take_open_write id _⟩

/-- Net-open accounting of one `writer` call: the capacity is preserved, the
resident count stays within capacity, the net number of opens equals the
change in resident entries, and no prefix of the call's events opens more
than one handle beyond the resident count. -/
theorem writer_net (p : WriterPool) (c : LruCache) (key : Key) (v : String)
    (p' : WriterPool) (c' : LruCache) (evs : List Event)
    (h : p.writer c key = some (v, p', c', evs)) (hle : c.entries.length ≤ c.cap) :
    c'.cap = c.cap ∧ c'.entries.length ≤ c.cap ∧
    netOpen evs = (c'.entries.length : Int) - (c.entries.length : Int) ∧
    ∀ n, netOpen (evs.take n) ≤ 1 := by
  rcases writer_cases p c key v p' c' evs h with
    ⟨hc, hp, hevs, hget⟩ | ⟨hc, id, evs1, hnw, hget, hevs⟩
  · obtain ⟨hcap, hlen⟩ := getMut_some_spec c key v c' hget
    subst hevs
    refine ⟨hcap, hlen ▸ hle, ?_, ?_⟩
    · rw [hlen]
      simp [netOpen]
    · intro n
      simp [netOpen]
  · obtain ⟨hn1, hnpre⟩ := netOpen_newWriter p key id p' evs1 hnw
    obtain ⟨hpcap, hput⟩ := put_spec_not_contains c key id hc
    obtain ⟨hgcap, hglen⟩ := getMut_some_spec _ key v c' hget
    rw [hpcap] at hgcap
    rcases hput with ⟨hev, hplen, hfits⟩ | ⟨⟨e, hev⟩, hplen, hover⟩
    · rw [hev] at hevs
      simp only [List.append_nil] at hevs
      subst hevs
      rw [hplen] at hglen
      refine ⟨hgcap, by omega, ?_, hnpre⟩
      rw [hn1, hglen]
      push_cast
      ring
    · rw [hev] at hevs
      have hevs2 : evs = evs1 ++ [Event.eclose e.2] := hevs
      subst hevs2
      rw [hplen] at hglen
      refine ⟨hgcap, by omega, ?_, ?_⟩
      · rw [netOpen_append, hn1, hglen]
        simp [netOpen, List.countP_cons, isOpenEv, isCloseEv]
      · intro n
        rw [netOpen_take_append]
        have h1 := hnpre n
        have h2 := netOpen_take_close e.2 (n - evs1.length)
        omega

/-- Net-open accounting of one loop iteration (`processRow`): same as
`writer_net`, the trailing record write changing nothing. -/
theorem processRow_net (fpl : Option Nat) (p : WriterPool) (c : LruCache) (row : Row)
    (p' : WriterPool) (c' : LruCache) (evs : List Event)
    (h : processRow fpl p c row = some (p', c', evs)) (hle : c.entries.length ≤ c.cap) :
    c'.cap = c.cap ∧ c'.entries.length ≤ c.cap ∧
    netOpen evs = (c'.entries.length : Int) - (c.entries.length : Int) ∧
    ∀ n, netOpen (evs.take n) ≤ 1 := by
  unfold processRow at h
  split at h
  · exact absurd h (by simp)
  · rename_i id p1 c1 evs1 hw
    simp only [Option.some.injEq, Prod.mk.injEq] at h
    obtain ⟨hp, hc1, hevs⟩ := h
    obtain ⟨hcap, hlen, hnet, hpre⟩ := writer_net p c _ id p1 c1 evs1 hw hle
    rw [← hc1, ← hevs]
    refine ⟨hcap, hlen, ?_, ?_⟩
    · rw [netOpen_append, hnet]
      simp [netOpen, List.countP_cons, isOpenEv, isCloseEv]
    · intro n
      rw [netOpen_take_append]
      have h1 := hpre n
      have h2 := netOpen_take_write id
        (if p.flagDrop then dropCol p.keyCol row else row) (n - evs1.length)
      omega

/-- Net-open accounting of the whole record loop: the cache never holds more
entries than its capacity, the net opens equal the change in resident
entries, and along every prefix of the emitted events the number of
simultaneously open handles exceeds the starting resident count by at most
one. -/
theorem runRows_net (fpl : Option Nat) :
    ∀ (rows : List Row) (p : WriterPool) (c : LruCache) (p' : WriterPool)
      (c' : LruCache) (evs : List Event),
      runRows fpl p c rows = some (p', c', evs) → c.entries.length ≤ c.cap →
      c'.cap = c.cap ∧ c'.entries.length ≤ c.cap ∧
      netOpen evs = (c'.entries.length : Int) - (c.entries.length : Int) ∧
      ∀ n, (c.entries.length : Int) + netOpen (evs.take n) ≤ (c.cap : Int) + 1 := by
  intro rows
  induction rows with
  | nil =>
    intro p c p' c' evs h hle
    simp only [runRows, Option.some.injEq, Prod.mk.injEq] at h
    obtain ⟨-, hc, hevs⟩ := h
    rw [← hc, ← hevs]
    refine ⟨rfl, hle, by simp [netOpen], ?_⟩
    intro n
    simp only [List.take_nil]
    have : netOpen [] = 0 := rfl
    omega
  | cons row rest ih =>
    intro p c p' c' evs h hle
    simp only [runRows] at h
    split at h
    · exact absurd h (by simp)
    · rename_i p1 c1 evs1 hpr1
      split at h
      · exact absurd h (by simp)
      · rename_i p2 c2 evs2 hpr2
        simp only [Option.some.injEq, Prod.mk.injEq] at h
        obtain ⟨hp, hc, hevs⟩ := h
        obtain ⟨hcap1, hlen1, hnet1, hpre1⟩ := processRow_net fpl p c row p1 c1 evs1 hpr1 hle
        obtain ⟨hcap2, hlen2, hnet2, hpre2⟩ :=
          ih p1 c1 p2 c2 evs2 hpr2 (by rw [hcap1]; exact hlen1)
        rw [hcap1] at hcap2 hlen2 hpre2
        rw [← hc, ← hevs]
        refine ⟨hcap2, hlen2, ?_, ?_⟩
        · rw [netOpen_append, hnet1, hnet2]
          ring
        · intro n
          rw [netOpen_take_append]
          rcases Nat.le_total n evs1.length with hn | hn
          · have hz : evs2.take (n - evs1.length) = [] := by
              rw [Nat.sub_eq_zero_of_le hn, List.take_zero]
            rw [hz]
            have h1 := hpre1 n
            have : netOpen [] = 0 := rfl
            omega
          · rw [List.take_of_length_le hn]
            have h2 := hpre2 (n - evs1.length)
            omega

/-! ### Claim C3 (corrected) -/

/-- Claim C3 (amended): the writer cache never holds more than
`--max-open-files` resident entries, and at the end of processing any input
at most that many handles remain open; however, because a new destination is
opened by `new_writer` *before* `put` closes the evicted least-recently-used
writer, up to `N + 1` handles are briefly open at interior points of the
run. -/
theorem c3_capacity_bound_amended (a : Args) (headers : Row) (rows : List Row)
    (trace : List Event) (h : a.sequentialPartition headers rows = RunResult.ok trace) :
    (∀ n, netOpen (trace.take n) ≤ (a.flagMaxOpenFiles : Int) + 1)
    ∧ netOpen trace ≤ (a.flagMaxOpenFiles : Int) := by
  unfold Args.sequentialPartition at h
  split at h
  · exact absurd h (by simp)
  · rename_i keyCol hkc
    split at h
    · exact absurd h (by simp)
    · rename_i p' c' evs hpr
      simp only [RunResult.ok.injEq] at h
      subst h
      obtain ⟨-, hlen, hnet, hpre⟩ :=
        runRows_net a.flagPrefixLen rows _ ⟨a.flagMaxOpenFiles, []⟩ p' c' evs hpr
          (by simp)
      constructor
      · intro n
        have := hpre n
        simpa using this
      · rw [hnet]
        simp only [List.length_nil, Nat.cast_zero, sub_zero]
        exact_mod_cast hlen

/-- Witness for the amended C3 on the fixture run. -/
theorem c3_capacity_bound_witness :
    (∀ n, netOpen (traceEx.take n) ≤ (argsEx.flagMaxOpenFiles : Int) + 1)
    ∧ netOpen traceEx ≤ (argsEx.flagMaxOpenFiles : Int) :=
  c3_capacity_bound_amended argsEx hdrEx rowsEx traceEx (by decide)

/-! ### Column dropping and claim C8 -/

/-- The `enumerate`/`filter_map` combination of the drop code removes exactly
the field at the key index. -/
theorem enumFrom_filterMap_dropCol (i : Nat) :
    ∀ (l : Row) (n : Nat),
      (List.enumFrom n l).filterMap (fun ie => if ie.1 ≠ i then some ie.2 else none) =
      if i < n then l else l.eraseIdx (i - n) := by
  intro l
  induction l with
  | nil => intro n; simp
  | cons a t ih =>
    intro n
    simp only [ne_eq, ite_not] at ih ⊢
    rcases Nat.lt_trichotomy i n with hlt | heq | hgt
    · have hne : ¬ (n = i) := by omega
      rw [if_pos hlt]
      simp [List.enumFrom, List.filterMap_cons, hne, ih, Nat.lt_succ_of_lt hlt]
    · subst heq
      simp [List.enumFrom, List.filterMap_cons, ih, Nat.lt_succ_self]
    · have hne : ¬ (n = i) := by omega
      have h1 : ¬ i < n := by omega
      have h2 : ¬ i < n + 1 := by omega
      have h3 : i - n = (i - (n + 1)) + 1 := by omega
      rw [if_neg h1, h3]
      simp [List.enumFrom, List.filterMap_cons, hne, ih, h2, List.eraseIdx_cons_succ]

/-- The projection `dropCol` is exactly `eraseIdx`: the key column's field is removed and
every other field is kept. -/
theorem dropCol_eq_eraseIdx (i : Nat) (l : Row) : dropCol i l = l.eraseIdx i := by
  have h := enumFrom_filterMap_dropCol i l 0
  rw [if_neg (Nat.not_lt_zero i), Nat.sub_zero] at h
  exact h

/-- Every record written by one `writer` call is the (possibly
column-dropped) header, and the pool's configuration fields are unchanged. -/
theorem writer_writes (p : WriterPool) (c : LruCache) (key : Key) (v : String)
    (p' : WriterPool) (c' : LruCache) (evs : List Event)
    (h : p.writer c key = some (v, p', c', evs)) :
    p'.flagDrop = p.flagDrop ∧ p'.keyCol = p.keyCol ∧ p'.headers = p.headers ∧
    ∀ i r, Event.ewrite i r ∈ evs →
      r = (if p.flagDrop then dropCol p.keyCol p.headers else p.headers) := by
  rcases writer_cases p c key v p' c' evs h with
    ⟨hc, hp, hevs, hget⟩ | ⟨hc, id, evs1, hnw, hget, hevs⟩
  · subst hp
    subst hevs
    exact ⟨rfl, rfl, rfl, fun i r hr => absurd hr (by simp)⟩
  · obtain ⟨hshape, hnh, hfd, hhd, hkc⟩ := newWriter_spec p key id p' evs1 hnw
    refine ⟨hfd, hkc, hhd, ?_⟩
    intro i r hr
    rw [hevs] at hr
    rcases List.mem_append.mp hr with hr1 | hr2
    · rcases hshape with hevs1 | hevs1
      · subst hevs1
        simp at hr1
      · subst hevs1
        simp only [List.mem_cons, List.not_mem_nil, or_false] at hr1
        rcases hr1 with h1 | h1
        · exact absurd h1 (by simp)
        · injection h1 with hi hr'
    · cases hpv : (c.put key id).2 with
      | none => rw [hpv] at hr2; simp at hr2
      | some e => rw [hpv] at hr2; simp at hr2

/-- Every record written during one loop iteration is the (possibly
column-dropped) header or the (possibly column-dropped) current row. -/
theorem processRow_writes (fpl : Option Nat) (p : WriterPool) (c : LruCache) (row : Row)
    (p' : WriterPool) (c' : LruCache) (evs : List Event)
    (h : processRow fpl p c row = some (p', c', evs)) :
    p'.flagDrop = p.flagDrop ∧ p'.keyCol = p.keyCol ∧ p'.headers = p.headers ∧
    ∀ i r, Event.ewrite i r ∈ evs →
      r = (if p.flagDrop then dropCol p.keyCol p.headers else p.headers) ∨
      r = (if p.flagDrop then dropCol p.keyCol row else row) := by
  unfold processRow at h
  split at h
  · exact absurd h (by simp)
  · rename_i id p1 c1 evs1 hw
    simp only [Option.some.injEq, Prod.mk.injEq] at h
    obtain ⟨hp, hc1, hevs⟩ := h
    obtain ⟨hfd, hkc, hhd, hwr⟩ := writer_writes p c _ id p1 c1 evs1 hw
    rw [← hp]
    refine ⟨hfd, hkc, hhd, ?_⟩
    intro i r hr
    rw [← hevs] at hr
    rcases List.mem_append.mp hr with hr1 | hr2
    · exact Or.inl (hwr i r hr1)
    · simp only [List.mem_singleton] at hr2
      injection hr2 with hi hr'
      exact Or.inr hr'

/-- Every record written during the whole loop is the (possibly
column-dropped) header or the (possibly column-dropped) projection of some
input row. -/
theorem runRows_writes (fpl : Option Nat) :
    ∀ (rows : List Row) (p : WriterPool) (c : LruCache) (p' : WriterPool)
      (c' : LruCache) (evs : List Event),
      runRows fpl p c rows = some (p', c', evs) →
      ∀ i r, Event.ewrite i r ∈ evs →
        r = (if p.flagDrop then dropCol p.keyCol p.headers else p.headers) ∨
        ∃ row ∈ rows, r = (if p.flagDrop then dropCol p.keyCol row else row) := by
  intro rows
  induction rows with
  | nil =>
    intro p c p' c' evs h i r hr
    simp only [runRows, Option.some.injEq, Prod.mk.injEq] at h
    obtain ⟨-, -, hevs⟩ := h
    rw [← hevs] at hr
    exact absurd hr (by simp)
  | cons row rest ih =>
    intro p c p' c' evs h i r hr
    simp only [runRows] at h
    split at h
    · exact absurd h (by simp)
    · rename_i p1 c1 evs1 hpr1
      split at h
      · exact absurd h (by simp)
      · rename_i p2 c2 evs2 hpr2
        simp only [Option.some.injEq, Prod.mk.injEq] at h
        obtain ⟨-, -, hevs⟩ := h
        rw [← hevs] at hr
        obtain ⟨hfd, hkc, hhd, hwr1⟩ := processRow_writes fpl p c row p1 c1 evs1 hpr1
        rcases List.mem_append.mp hr with hr1 | hr2
        · rcases hwr1 i r hr1 with h1 | h1
          · exact Or.inl h1
          · exact Or.inr ⟨row, List.mem_cons_self row rest, h1⟩
        · rcases ih p1 c1 p2 c2 evs2 hpr2 i r hr2 with h1 | ⟨row2, hrow2, h2⟩
          · rw [hfd, hkc, hhd] at h1
            exact Or.inl h1
          · rw [hfd, hkc] at h2
            exact Or.inr ⟨row2, List.mem_cons_of_mem row hrow2, h2⟩

/-- Claim C8 (confirmed): with `--drop`, every record written to a
destination — headers included — is an input record with exactly the key
column's field removed; without `--drop`, every written record is an
unmodified input record (the header or a data row). -/
theorem c8_column_drop (a : Args) (headers : Row) (rows : List Row) (keyCol : Nat)
    (trace : List Event) (hk : a.keyColumn = Except.ok keyCol)
    (h : a.sequentialPartition headers rows = RunResult.ok trace)
    (id : String) (r : Row) (hmem : Event.ewrite id r ∈ trace) :
    (a.flagDrop = true →
      r = headers.eraseIdx keyCol ∨ ∃ row ∈ rows, r = row.eraseIdx keyCol)
    ∧ (a.flagDrop = false → r = headers ∨ r ∈ rows) := by
  unfold Args.sequentialPartition at h
  split at h
  · rename_i msg hkc2
    rw [hk] at hkc2
    exact absurd hkc2 (by simp)
  · rename_i kc hkc2
    rw [hk] at hkc2
    have hkceq : keyCol = kc := by injection hkc2 with h'
    subst hkceq
    split at h
    · exact absurd h (by simp)
    · rename_i p' c' evs hpr
      simp only [RunResult.ok.injEq] at h
      subst h
      have hw := runRows_writes a.flagPrefixLen rows _ ⟨a.flagMaxOpenFiles, []⟩ p' c' evs
        hpr id r hmem
      have hw' : r = (if a.flagDrop then dropCol keyCol headers else headers) ∨
          ∃ row ∈ rows, r = (if a.flagDrop then dropCol keyCol row else row) := hw
      constructor
      · intro hd
        rw [hd] at hw'
        simp only [if_true] at hw'
        rcases hw' with h1 | ⟨row, hrow, h2⟩
        · exact Or.inl (by rw [h1, dropCol_eq_eraseIdx])
        · exact Or.inr ⟨row, hrow, by rw [h2, dropCol_eq_eraseIdx]⟩
      · intro hd
        rw [hd] at hw'
        simp only [Bool.false_eq_true, if_false] at hw'
        rcases hw' with h1 | ⟨row, hrow, h2⟩
        · exact Or.inl h1
        · exact Or.inr (by rw [h2]; exact hrow)

/-- Witness for C8 on the `--drop` fixture: the data record written to
destination `a` is the input row with the key column removed. -/
theorem c8_column_drop_witness :
    [[49]] = ([[107], [118]] : Row).eraseIdx 0 ∨
      ∃ row ∈ [[[97], [49]]], ([[49]] : Row) = row.eraseIdx 0 :=
  (c8_column_drop argsDropEx [[107], [118]] [[[97], [49]]] 0 traceDropEx rfl
    (by decide) "a" [[49]] (by decide)).1 rfl

end XsvPartition
